import Mathlib

set_option maxRecDepth 100000

/-!
Verification of the btrs BitTorrent client against its natural-language
specification.  All definitions are shallow embeddings of the Rust source:
bytes are modelled as `Nat` values below 256, byte buffers as `List Nat`,
machine-integer truncation (`as u32`, u32 wrapping arithmetic) as explicit
`% 2 ^ 32`, and fallible code as `Option` / `Except` / explicit outcome
types.  A dedicated outcome constructor marks executions in which the Rust
code would panic (slice index out of bounds, `bytes::Buf` advance past the
end, integer-underflow on `usize`).
-/

namespace Btrs

/-! ## Peer wire messages — src/torrent/peer_session/message.rs -/

/-- Big-endian serialisation of a `u32` (`u32::to_be_bytes`); values are
reduced modulo `2 ^ 32` bytewise, matching two's-complement truncation. -/
def u32be (n : Nat) : List Nat :=
  [n / 2 ^ 24 % 256, n / 2 ^ 16 % 256, n / 2 ^ 8 % 256, n % 256]

/-- Big-endian serialisation of a `u16` (`u16::to_be_bytes`). -/
def u16be (n : Nat) : List Nat :=
  [n / 2 ^ 8 % 256, n % 256]

/-- Reading a big-endian `u32` from the front of a buffer
(`bytes::Buf::get_u32`): `none` when fewer than four bytes remain, which in
the Rust source is a panic. -/
def readU32 : List Nat → Option (Nat × List Nat)
  | a :: b :: c :: d :: rest => some (((a * 256 + b) * 256 + c) * 256 + d, rest)
  | _ => none

/-- Reading a big-endian `u16` from the front of a buffer
(`bytes::Buf::get_u16`): `none` when fewer than two bytes remain. -/
def readU16 : List Nat → Option (Nat × List Nat)
  | a :: b :: rest => some (a * 256 + b, rest)
  | _ => none

/-- The `MessageType` enum of message.rs.  Numeric fields are `Nat`
images of the Rust `u32` / `u16` fields; `WellTyped` below records the
range constraints the Rust types impose. -/
inductive MessageType
  | Choke
  | Unchoke
  | Interested
  | NotInterested
  | Have (index : Nat)
  | Bitfield (items : List Nat)
  | Request (index begin_ length : Nat)
  | Piece (index begin_ : Nat) (block : List Nat)
  | Cancel (index begin_ length : Nat)
  | Port (port : Nat)
  | KeepAlive
  deriving DecidableEq, Repr

/-- The three `bail!` sites of `MessageType::from_bytes` (error text
abstracted): buffer shorter than the four-byte prefix, buffer shorter than
the declared message length, and an unrecognised message id. -/
inductive DecodeError
  | shortFrame
  | shortPayload
  | unknownId (id : Nat)
  deriving DecidableEq, Repr

/-- Outcome of running the decoder: a message, a returned error, or `oob`
marking an execution in which the Rust code panics (a `get_u32`/`get_u16`
advancing past the end of the buffer, a slice index out of range, or a
`usize` underflow in a slice bound). -/
inductive DecodeOutcome
  | ok (m : MessageType)
  | err (e : DecodeError)
  | oob
  deriving DecidableEq, Repr

/-- `MessageType::from_bytes` (message.rs lines 32-100).  `bytes` is the
whole frame including the four-byte length prefix; `id` and `len` are the
caller-peeked id byte and length prefix.  The length checks use the length
read from `bytes`; the `Bitfield` and `Piece` slice bounds use the `len`
parameter, exactly as in the source. -/
def MessageType.from_bytes (bytes : List Nat) (id : Nat) (len : Nat) : DecodeOutcome :=
  match readU32 bytes with
  | none => .err .shortFrame
  | some (message_length, rest) =>
    if message_length = 0 then .ok .KeepAlive
    else if rest.length < message_length then .err .shortPayload
    else
      match rest with
      | [] => .oob
      | idx :: r =>
        match idx with
        | 0 => .ok .Choke
        | 1 => .ok .Unchoke
        | 2 => .ok .Interested
        | 3 => .ok .NotInterested
        | 4 =>
          match readU32 r with
          | some (index, _) => .ok (.Have index)
          | none => .oob
        | 5 =>
          if len = 0 then .oob
          else if r.length < len - 1 then .oob
          else .ok (.Bitfield (r.take (len - 1)))
        | 6 =>
          match readU32 r with
          | none => .oob
          | some (index, r1) =>
            match readU32 r1 with
            | none => .oob
            | some (begin_, r2) =>
              match readU32 r2 with
              | none => .oob
              | some (length, _) => .ok (.Request index begin_ length)
        | 7 =>
          match readU32 r with
          | none => .oob
          | some (index, r1) =>
            match readU32 r1 with
            | none => .oob
            | some (begin_, rem) =>
              if len < 9 then .oob
              else if rem.length < len - 9 then .oob
              else .ok (.Piece index begin_ (rem.take (len - 9)))
        | 8 =>
          match readU32 r with
          | none => .oob
          | some (index, r1) =>
            match readU32 r1 with
            | none => .oob
            | some (begin_, r2) =>
              match readU32 r2 with
              | none => .oob
              | some (length, _) => .ok (.Cancel index begin_ length)
        | 9 =>
          match readU16 r with
          | some (port, _) => .ok (.Port port)
          | none => .oob
        | _ => .err (.unknownId id)

/-- `MessageType::to_bytes` (message.rs lines 102-176).  The only
machine-width effects are the `as u32` casts on `Vec` lengths and the `u32`
additions producing the length prefix, rendered as `% 2 ^ 32`. -/
def MessageType.to_bytes : MessageType → List Nat
  | .Choke => u32be 1 ++ [0]
  | .Unchoke => u32be 1 ++ [1]
  | .Interested => u32be 1 ++ [2]
  | .NotInterested => u32be 1 ++ [3]
  | .Have idx => u32be 5 ++ [4] ++ u32be idx
  | .Bitfield items => u32be ((items.length % 2 ^ 32 + 1) % 2 ^ 32) ++ [5] ++ items
  | .Request index begin_ length =>
      u32be 13 ++ [6] ++ u32be index ++ u32be begin_ ++ u32be length
  | .Piece index begin_ block =>
      u32be ((9 + block.length % 2 ^ 32) % 2 ^ 32) ++ [7] ++ u32be index ++ u32be begin_ ++ block
  | .Cancel index begin_ length =>
      u32be 13 ++ [8] ++ u32be index ++ u32be begin_ ++ u32be length
  | .Port port => u32be 3 ++ [9] ++ u16be port
  | .KeepAlive => u32be 0

/-- Length prefix of a frame as `PeerSession::read_message` reads it. -/
def frameLen (bs : List Nat) : Nat :=
  match readU32 bs with
  | some p => p.1
  | none => 0

/-- Id byte of a frame as `PeerSession::read_message` peeks it
(`msg_buf[4]` when the length prefix is positive, else `0`). -/
def frameId (bs : List Nat) : Nat :=
  if 0 < frameLen bs then bs.getD 4 0 else 0

/-- The pure tail of `PeerSession::read_message` (peer_session.rs lines
296-313): peek the length prefix and id byte of the buffered frame and run
`MessageType::from_bytes` on it. -/
def read_message (bs : List Nat) : DecodeOutcome :=
  MessageType.from_bytes bs (frameId bs) (frameLen bs)

/-- Range constraints imposed by the Rust types of `MessageType`: `u32`
fields below `2 ^ 32`, the `u16` port below `2 ^ 16`, `Vec<u8>` entries
below 256. -/
def MessageType.WellTyped : MessageType → Prop
  | .Have index => index < 2 ^ 32
  | .Bitfield items => ∀ b ∈ items, b < 256
  | .Request index begin_ length => index < 2 ^ 32 ∧ begin_ < 2 ^ 32 ∧ length < 2 ^ 32
  | .Piece index begin_ block => index < 2 ^ 32 ∧ begin_ < 2 ^ 32 ∧ ∀ b ∈ block, b < 256
  | .Cancel index begin_ length => index < 2 ^ 32 ∧ begin_ < 2 ^ 32 ∧ length < 2 ^ 32
  | .Port port => port < 2 ^ 16
  | _ => True

instance (m : MessageType) : Decidable m.WellTyped := by
  cases m <;> simp only [MessageType.WellTyped] <;> infer_instance

/-- Sizes at which `to_bytes` writes a length prefix that matches the
actual payload: the `u32` casts on the `Bitfield` and `Piece` payload
lengths must not truncate. -/
def MessageType.sizeOK : MessageType → Prop
  | .Bitfield items => items.length + 1 < 2 ^ 32
  | .Piece _ _ block => block.length + 9 < 2 ^ 32
  | _ => True

instance (m : MessageType) : Decidable m.sizeOK := by
  cases m <;> simp only [MessageType.sizeOK] <;> infer_instance

/-- A buffer holding exactly one frame: four length-prefix bytes followed
by exactly as many payload bytes as the prefix declares — the shape
`PeerSession::read_message` hands to `MessageType::from_bytes`. -/
def exactFrame (bs : List Nat) : Prop :=
  bs.length = 4 + frameLen bs

/-- A frame whose declared length leaves fewer payload bytes than its
message id requires (5 for Have, 13 for Request and Cancel, 9 for Piece,
3 for Port, counting the id byte). -/
def truncatedPayload (bs : List Nat) : Prop :=
  0 < frameLen bs ∧
    ((frameId bs = 4 ∧ frameLen bs < 5) ∨ (frameId bs = 6 ∧ frameLen bs < 13) ∨
      (frameId bs = 7 ∧ frameLen bs < 9) ∨ (frameId bs = 8 ∧ frameLen bs < 13) ∨
      (frameId bs = 9 ∧ frameLen bs < 3))

instance (bs : List Nat) : Decidable (exactFrame bs) := by
  unfold exactFrame
  infer_instance

instance (bs : List Nat) : Decidable (truncatedPayload bs) := by
  unfold truncatedPayload
  infer_instance

/-! ## Piece work — src/torrent/peer_session/work.rs and piece_manager.rs -/

/-- The `PieceRequest` struct of piece_manager.rs. -/
structure PieceRequest where
  piece_index : Nat
  length_bytes : Nat
  deriving DecidableEq, Repr

/-- The `PieceError` enum of piece_manager.rs. -/
inductive PieceError
  | Timeout
  | InvalidData (msg : String)
  | PeerChoked
  | ConnectionLost
  | PieceUnavailable
  deriving DecidableEq, Repr

instance {ε α : Type} [DecidableEq ε] [DecidableEq α] : DecidableEq (Except ε α) := fun a b =>
  match a, b with
  | .ok x, .ok y =>
    if h : x = y then .isTrue (by rw [h]) else .isFalse (by intro hc; cases hc; exact h rfl)
  | .error x, .error y =>
    if h : x = y then .isTrue (by rw [h]) else .isFalse (by intro hc; cases hc; exact h rfl)
  | .ok _, .error _ => .isFalse (by intro hc; cases hc)
  | .error _, .ok _ => .isFalse (by intro hc; cases hc)

/-- The `PieceResponse` struct of piece_manager.rs. -/
structure PieceResponse where
  piece_index : Nat
  result : Except PieceError (List Nat)
  deriving DecidableEq, Repr

/-- The `BlockStatus` enum of work.rs. -/
inductive BlockStatus
  | Full
  | Empty
  | InProgress
  deriving DecidableEq, Repr

/-- The `BlockInfo` struct of work.rs; `offset` and `length` hold the
Rust `u32` field values. -/
structure BlockInfo where
  offset : Nat
  length : Nat
  status : BlockStatus
  data : List Nat
  deriving DecidableEq, Repr

/-- The `PieceWork` struct of work.rs. -/
structure PieceWork where
  index : Nat
  length : Nat
  block_size : Nat
  blocks : List BlockInfo
  deriving DecidableEq, Repr

/-- The `BlockResponse` struct of work.rs. -/
structure BlockResponse where
  index : Nat
  begin_ : Nat
  block : List Nat
  deriving DecidableEq, Repr

/-- The `BLOCK_SIZE` constant of work.rs. -/
def BLOCK_SIZE : Nat := 16 * 1024

/-- The `while offset < value.length_bytes` loop of
`From<PieceRequest> for PieceWork` (work.rs lines 31-47): each iteration
emits a block of `min BLOCK_SIZE remaining` bytes; `offset as u32` and
`block_len as u32` are the only machine-width casts. -/
def buildBlocks (length_bytes offset : Nat) : List BlockInfo :=
  if h : offset < length_bytes then
    let block_len := min BLOCK_SIZE (length_bytes - offset)
    { offset := offset % 2 ^ 32, length := block_len % 2 ^ 32,
      status := .Empty, data := [] } :: buildBlocks length_bytes (offset + block_len)
  else []
  termination_by length_bytes - offset
  decreasing_by
    have hb : 0 < min BLOCK_SIZE (length_bytes - offset) := by
      simp only [lt_min_iff]
      exact ⟨by norm_num [BLOCK_SIZE], Nat.sub_pos_of_lt h⟩
    omega

/-- `From<PieceRequest> for PieceWork` (work.rs lines 29-62). -/
def PieceWork.ofRequest (value : PieceRequest) : PieceWork :=
  { index := value.piece_index
    length := value.length_bytes
    block_size := BLOCK_SIZE
    blocks := buildBlocks value.length_bytes 0 }

/-- Structural twin of `buildBlocks` used to evaluate it inside the
kernel (the well-founded recursion of `buildBlocks` does not reduce by
`decide`); `buildBlocksFuel_eq` below proves the two agree when the fuel
covers the number of loop iterations. -/
def buildBlocksFuel : Nat → Nat → Nat → List BlockInfo
  | 0, _, _ => []
  | n + 1, length_bytes, offset =>
    if offset < length_bytes then
      { offset := offset % 2 ^ 32,
        length := min BLOCK_SIZE (length_bytes - offset) % 2 ^ 32,
        status := .Empty, data := [] } ::
        buildBlocksFuel n length_bytes (offset + min BLOCK_SIZE (length_bytes - offset))
    else []

/-- `PieceWork::is_complete` (work.rs lines 65-69). -/
def PieceWork.is_complete (w : PieceWork) : Bool :=
  w.blocks.all fun block => block.status = .Full

/-- State owned by `PieceManager` (piece_manager.rs lines 5-9): the shared
work queue and the piece metadata table; the result channel is modelled by
feeding responses to `PieceManager.run_step` one at a time. -/
structure PieceMetadata where
  index : Nat
  hash : List Nat
  length : Nat
  offset : Nat
  deriving DecidableEq, Repr

/-- Mutable state of the `PieceManager` (work queue and metadata). -/
structure PieceManagerState where
  work_queue : List PieceRequest
  piece_metadata : List PieceMetadata
  deriving DecidableEq, Repr

/-- Body of the `while let Some(result) = self.results.recv().await` loop
of `PieceManager::run` (piece_manager.rs lines 30-35): the received result
is only printed, so the state is returned unchanged — no hash is checked
and nothing is re-enqueued. -/
def PieceManager.run_step (st : PieceManagerState) (_result : PieceResponse) :
    PieceManagerState :=
  -- the loop body only prints the received piece index; no state effect
  st

/-! ## Peer session state — src/torrent/peer_session.rs -/

/-- The `PeerState` struct (peer_session.rs lines 35-41). -/
structure PeerState where
  is_choked : Bool
  is_choking : Bool
  is_peer_interested : Bool
  is_interested : Bool
  bitfield : List Nat
  deriving DecidableEq, Repr

/-- `PeerState::has_piece` (peer_session.rs lines 44-51).  The Rust body
indexes `self.bitfield[byte_offset]` with no bounds check; `none` marks the
out-of-bounds panic. -/
def PeerState.has_piece (s : PeerState) (piece_index : Nat) : Option Bool :=
  let bit_offset := 7 - piece_index % 8
  let byte_offset := piece_index / 8
  match s.bitfield.get? byte_offset with
  | none => none
  | some byte => some (byte &&& (1 <<< bit_offset) != 0)

/-- The `PeerState` value constructed by `PeerSession::new`
(peer_session.rs lines 60-66): everything choked, nothing interested, and
an empty bitfield. -/
def PeerSession.new_peer_state : PeerState :=
  { is_choked := true
    is_choking := true
    is_peer_interested := false
    is_interested := false
    bitfield := [] }

/-- One dispatch of the `match msg` in `PeerSession::peer_listener`
(peer_session.rs lines 255-291): returns the updated shared state and the
block responses forwarded on the block channel.  `Have` only prints
(line 260), `Bitfield` replaces the bitfield wholesale (line 261), `Piece`
is forwarded, everything else logs or flips a flag. -/
def PeerSession.peer_listener_step (state : PeerState) (msg : MessageType) :
    PeerState × List BlockResponse :=
  match msg with
  | .Choke => ({ state with is_choked := true }, [])
  | .Unchoke => ({ state with is_choked := false }, [])
  | .Interested => ({ state with is_peer_interested := true }, [])
  | .NotInterested => ({ state with is_peer_interested := false }, [])
  | .Have _ => (state, [])
  | .Bitfield items => ({ state with bitfield := items }, [])
  | .Request _ _ _ => (state, [])
  | .Piece index begin_ block => (state, [{ index := index, begin_ := begin_, block := block }])
  | .Cancel _ _ _ => (state, [])
  | .Port _ => (state, [])
  | .KeepAlive => (state, [])

/-- The `max_in_flight` constant of `PeerSession::peer_requester`
(peer_session.rs line 157). -/
def MAX_IN_FLIGHT : Nat := 5

/-- One `block_rx.try_recv()` application (peer_session.rs lines 193-208):
the first block whose offset equals `begin` and whose status is
`InProgress` receives the data and becomes `Full`; otherwise only a
warning is printed. -/
def applyBlockResponse (resp : BlockResponse) : List BlockInfo → List BlockInfo
  | [] => []
  | b :: bs =>
    if b.offset = resp.begin_ ∧ b.status = .InProgress then
      { b with data := resp.block, status := .Full } :: bs
    else b :: applyBlockResponse resp bs

/-- Draining the block channel: responses applied in arrival order. -/
def applyBlockResponses (resps : List BlockResponse) (blocks : List BlockInfo) :
    List BlockInfo :=
  resps.foldl (fun bs r => applyBlockResponse r bs) blocks

/-- The request-batching of `peer_requester` (peer_session.rs lines
213-223): the first `k` blocks whose status is `Empty`, in list order, are
flipped to `InProgress` (`iter_mut().filter(Empty).take(k)`). -/
def flipEmpty : Nat → List BlockInfo → List BlockInfo
  | _, [] => []
  | 0, bs => bs
  | k + 1, b :: bs =>
    if b.status = .Empty then { b with status := .InProgress } :: flipEmpty k bs
    else b :: flipEmpty (k + 1) bs

/-- One iteration of the work-in-progress branch of the `peer_requester`
loop (peer_session.rs lines 183-236) on a piece that is not complete:
drain the arrived block responses, then, when the session is not choked,
flip up to `MAX_IN_FLIGHT` still-`Empty` blocks to `InProgress` and batch
the requests. -/
def PeerSession.requester_iteration (is_choked : Bool) (resps : List BlockResponse)
    (work : PieceWork) : PieceWork :=
  let blocks := applyBlockResponses resps work.blocks
  let blocks := if is_choked then blocks else flipEmpty MAX_IN_FLIGHT blocks
  { work with blocks := blocks }

/-- Number of blocks currently marked `InProgress`. -/
def countInProgress (blocks : List BlockInfo) : Nat :=
  blocks.countP fun b => b.status = .InProgress

/-! ## Compact peer lists — src/torrent.rs lines 43-67 -/

/-- The `Peer` struct of torrent.rs (ip rendered as a string by
`Ipv4Addr::to_string`, port widened to `u64`). -/
structure Peer where
  ip : String
  port : Nat
  deriving DecidableEq, Repr

/-- Dotted-decimal rendering of `Ipv4Addr::new(a, b, c, d).to_string()`. -/
def ipv4String (a b c d : Nat) : String :=
  toString a ++ "." ++ toString b ++ "." ++ toString c ++ "." ++ toString d

/-- The `PeersEnum::Compact` arm of `From<PeersEnum> for Vec<Peer>`
(torrent.rs lines 56-62): `chunks_exact(6)` walks complete six-byte
chunks, building an IPv4 address from the first four bytes and a
big-endian port from the last two; a trailing remainder shorter than six
bytes is not visited. -/
def peersOfCompact : List Nat → List Peer
  | a :: b :: c :: d :: e :: f :: rest =>
    { ip := ipv4String a b c d, port := 256 * e + f } :: peersOfCompact rest
  | _ => []

/-! ## Info hash — src/torrent.rs lines 69-111, the sha1 and serde_bencode crates -/

/-- Big-endian serialisation of a 64-bit value (SHA-1 length field). -/
def u64be (n : Nat) : List Nat :=
  [n / 2 ^ 56 % 256, n / 2 ^ 48 % 256, n / 2 ^ 40 % 256, n / 2 ^ 32 % 256,
    n / 2 ^ 24 % 256, n / 2 ^ 16 % 256, n / 2 ^ 8 % 256, n % 256]

/-- 32-bit left rotation. -/
def rotl (k n : Nat) : Nat :=
  ((n <<< k) ||| (n >>> (32 - k))) % 2 ^ 32

/-- Big-endian 32-bit words of a byte list (SHA-1 message schedule input). -/
def beWords : List Nat → List Nat
  | a :: b :: c :: d :: rest => (((a * 256 + b) * 256 + c) * 256 + d) :: beWords rest
  | _ => []

/-- SHA-1 message-schedule extension: appends the next scheduled word, `n` times. -/
def sha1ExtendGo : Nat → List Nat → List Nat
  | 0, w => w
  | n + 1, w =>
    sha1ExtendGo n (w ++ [rotl 1 ((w.getD (w.length - 3) 0) ^^^ (w.getD (w.length - 8) 0) ^^^
      (w.getD (w.length - 14) 0) ^^^ (w.getD (w.length - 16) 0))])

/-- The 80 SHA-1 rounds, indexed from `i`, consuming the schedule words. -/
def sha1RoundsGo : Nat → Nat × Nat × Nat × Nat × Nat → List Nat → Nat × Nat × Nat × Nat × Nat
  | _, st, [] => st
  | i, (a, b, c, d, e), wi :: rest =>
    let f :=
      if i < 20 then (b &&& c) ||| ((b ^^^ 4294967295) &&& d)
      else if i < 40 then b ^^^ c ^^^ d
      else if i < 60 then (b &&& c) ||| (b &&& d) ||| (c &&& d)
      else b ^^^ c ^^^ d
    let k :=
      if i < 20 then 1518500249
      else if i < 40 then 1859775393
      else if i < 60 then 2400959708
      else 3395469782
    let temp := (rotl 5 a + f + e + k + wi) % 2 ^ 32
    sha1RoundsGo (i + 1) (temp, a, rotl 30 b, c, d) rest

/-- SHA-1 compression over successive 16-word blocks. -/
def sha1Chunks : Nat → Nat → Nat → Nat → Nat → List Nat → Nat × Nat × Nat × Nat × Nat
  | h0, h1, h2, h3, h4,
    w0 :: w1 :: w2 :: w3 :: w4 :: w5 :: w6 :: w7 :: w8 :: w9 :: w10 :: w11 :: w12 :: w13 ::
      w14 :: w15 :: rest =>
    match sha1RoundsGo 0 (h0, h1, h2, h3, h4)
      (sha1ExtendGo 64 [w0, w1, w2, w3, w4, w5, w6, w7, w8, w9, w10, w11, w12, w13, w14, w15]) with
    | (a, b, c, d, e) =>
      sha1Chunks ((h0 + a) % 2 ^ 32) ((h1 + b) % 2 ^ 32) ((h2 + c) % 2 ^ 32)
        ((h3 + d) % 2 ^ 32) ((h4 + e) % 2 ^ 32) rest
  | h0, h1, h2, h3, h4, _ => (h0, h1, h2, h3, h4)

/-- SHA-1 padding: 0x80, zeros to 56 mod 64, then the bit length. -/
def sha1Pad (msg : List Nat) : List Nat :=
  msg ++ 128 :: List.replicate ((119 - msg.length % 64) % 64) 0 ++ u64be (8 * msg.length)

/-- SHA-1 (RFC 3174) over a byte list, modelling the sha1 crate used by
`Torrent::calculate_info_hash` (torrent.rs lines 106-108). -/
def sha1 (msg : List Nat) : List Nat :=
  match sha1Chunks 1732584193 4023233417 2562383102 271733878 3285377520
      (beWords (sha1Pad msg)) with
  | (h0, h1, h2, h3, h4) => u32be h0 ++ u32be h1 ++ u32be h2 ++ u32be h3 ++ u32be h4


/-- The serde_bencode `Value` type: integers, byte strings, lists and
dictionaries; the crate stores dictionaries in a `HashMap<Vec<u8>, Value>`,
modelled here as an association list in parse order. -/
inductive BValue
  | int (i : Int)
  | bytes (bs : List Nat)
  | list (vs : List BValue)
  | dict (entries : List (List Nat × BValue))

/-- ASCII decimal digit test. -/
def isDigit (c : Nat) : Bool := 48 ≤ c && c ≤ 57

/-- Splits the longest leading run of ASCII digits off a byte list. -/
def btakeDigits : List Nat → List Nat × List Nat
  | [] => ([], [])
  | c :: rest =>
    if isDigit c then
      match btakeDigits rest with
      | (ds, r) => (c :: ds, r)
    else ([], c :: rest)

/-- Decimal value of an ASCII digit run. -/
def digitsToNat (ds : List Nat) : Nat :=
  ds.foldl (fun a c => a * 10 + (c - 48)) 0

mutual

/-- Bencode parsing, modelling serde_bencode deserialisation of `Value`
(integers `i..e`, length-prefixed byte strings, lists `l..e`, dictionaries
`d..e` with byte-string keys accepted in any order).  The `Nat` argument
is fuel for structural recursion; callers pass more than the input length,
which the grammar can never exhaust. -/
def bparse : Nat → List Nat → Option (BValue × List Nat)
  | 0, _ => none
  | fuel + 1, input =>
    match input with
    | [] => none
    | c :: rest =>
      if c = 105 then
        match (match rest with | 45 :: r => (true, r) | _ => (false, rest)) with
        | (neg, rest1) =>
          match btakeDigits rest1 with
          | ([], _) => none
          | (ds, rest2) =>
            match rest2 with
            | 101 :: rest3 =>
              some (.int (if neg then -(digitsToNat ds : Int) else (digitsToNat ds : Int)), rest3)
            | _ => none
      else if c = 108 then
        match bparseMany fuel rest with
        | some (vs, rest1) => some (.list vs, rest1)
        | none => none
      else if c = 100 then
        match bparsePairs fuel rest with
        | some (es, rest1) => some (.dict es, rest1)
        | none => none
      else if isDigit c then
        match btakeDigits (c :: rest) with
        | (ds, rest1) =>
          match rest1 with
          | 58 :: rest2 =>
            let n := digitsToNat ds
            if rest2.length < n then none
            else some (.bytes (rest2.take n), rest2.drop n)
          | _ => none
      else none

def bparseMany : Nat → List Nat → Option (List BValue × List Nat)
  | 0, _ => none
  | fuel + 1, input =>
    match input with
    | 101 :: rest => some ([], rest)
    | _ =>
      match bparse fuel input with
      | none => none
      | some (v, rest1) =>
        match bparseMany fuel rest1 with
        | none => none
        | some (vs, rest2) => some (v :: vs, rest2)

def bparsePairs : Nat → List Nat → Option (List (List Nat × BValue) × List Nat)
  | 0, _ => none
  | fuel + 1, input =>
    match input with
    | 101 :: rest => some ([], rest)
    | _ =>
      match bparse fuel input with
      | some (.bytes k, rest1) =>
        match bparse fuel rest1 with
        | none => none
        | some (v, rest2) =>
          match bparsePairs fuel rest2 with
          | none => none
          | some (es, rest3) => some ((k, v) :: es, rest3)
      | _ => none

end

/-- Decimal ASCII digits of a number (fuelled accumulator loop). -/
def natDecGo : Nat → Nat → List Nat → List Nat
  | 0, _, acc => acc
  | fuel + 1, n, acc => if n = 0 then acc else natDecGo fuel (n / 10) ((48 + n % 10) :: acc)

/-- Decimal ASCII rendering of a natural number. -/
def natDec (n : Nat) : List Nat :=
  if n = 0 then [48] else natDecGo n n []

/-- Bencode integer payload: optional minus sign and decimal digits. -/
def intEnc (i : Int) : List Nat :=
  if i < 0 then 45 :: natDec i.natAbs else natDec i.natAbs

/-- Byte-wise lexicographic order on keys (the `Ord` of `Vec<u8>`). -/
def lexLt : List Nat → List Nat → Bool
  | [], [] => false
  | [], _ :: _ => true
  | _ :: _, [] => false
  | x :: xs, y :: ys => if x < y then true else if y < x then false else lexLt xs ys

/-- Insertion step of the key sort. -/
def insortEntry (e : List Nat × BValue) : List (List Nat × BValue) → List (List Nat × BValue)
  | [] => [e]
  | f :: fs => if lexLt e.1 f.1 then e :: f :: fs else f :: insortEntry e fs

/-- Dictionary entries sorted by key, as the serde_bencode serialiser
emits them (bencode requires sorted keys, and the crate sorts the map
entries before writing). -/
def sortEntries (es : List (List Nat × BValue)) : List (List Nat × BValue) :=
  es.foldr insortEntry []

/-- Bencode serialisation, modelling serde_bencode `to_bytes` on `Value`;
dictionaries are emitted with keys sorted.  Fuelled like the parsing
functions. -/
def bencodeVal : Nat → BValue → List Nat
  | 0, _ => []
  | fuel + 1, v =>
    match v with
    | .int i => 105 :: (intEnc i ++ [101])
    | .bytes bs => natDec bs.length ++ 58 :: bs
    | .list vs => 108 :: (vs.foldl (fun acc x => acc ++ bencodeVal fuel x) [] ++ [101])
    | .dict es =>
      100 :: ((sortEntries es).foldl
        (fun acc kv => acc ++ (natDec kv.1.length ++ 58 :: kv.1) ++ bencodeVal fuel kv.2) []
        ++ [101])

/-- Dictionary lookup (`dict.get` on the `HashMap`); the modelled inputs
have no duplicate keys, so first match suffices. -/
def lookupKey : List (List Nat × BValue) → List Nat → Option BValue
  | [], _ => none
  | (k, v) :: es, key => if k = key then some v else lookupKey es key

/-- The three failure cases of `Torrent::calculate_info_hash` (error text
abstracted). -/
inductive InfoHashError
  | invalidBencode
  | missingInfo
  | notDict
  deriving DecidableEq, Repr

/-- The ASCII bytes of the key `info`. -/
def infoKey : List Nat := [105, 110, 102, 111]

/-- `Torrent::calculate_info_hash` (torrent.rs lines 92-111): decode the
whole file as a bencode `Value`, look up the `info` entry of the top-level
dictionary, re-encode that value with serde_bencode, and hash the
re-encoding with SHA-1. -/
def calculate_info_hash (bytes : List Nat) : Except InfoHashError (List Nat) :=
  match bparse (bytes.length + 1) bytes with
  | none => .error .invalidBencode
  | some (value, _) =>
    match value with
    | .dict entries =>
      match lookupKey entries infoKey with
      | some info_value => .ok (sha1 (bencodeVal (bytes.length + 1) info_value))
      | none => .error .missingInfo
    | _ => .error .notDict

/-- Scan of the top-level dictionary body tracking consumed bytes. -/
def infoSubrangeGo : Nat → List Nat → Option (List Nat)
  | 0, _ => none
  | fuel + 1, input =>
    match input with
    | 101 :: _ => none
    | _ =>
      match bparse (input.length + 1) input with
      | some (.bytes k, rest1) =>
        match bparse (rest1.length + 1) rest1 with
        | some (_, rest2) =>
          if k = infoKey then some (rest1.take (rest1.length - rest2.length))
          else infoSubrangeGo fuel rest2
        | none => none
      | _ => none

/-- The exact byte range of the `info` sub-dictionary as it appeared in
the input bytes, following the specification's words; no function in the
source computes this range — the code re-encodes the decoded value
instead. -/
def infoSubrange (bytes : List Nat) : Option (List Nat) :=
  match bytes with
  | 100 :: rest => infoSubrangeGo (bytes.length + 1) rest
  | _ => none

/-- A .torrent file whose info dictionary is valid but bencoded with its
keys out of sorted order (`name` before `files`): the bytes of the string
d8:announce1:u4:infod4:name1:n5:filesl..e12:piece lengthi1e6:pieces0:ee. -/
def exTorrent : List Nat :=
  [100, 56, 58, 97, 110, 110, 111, 117, 110, 99, 101, 49, 58, 117, 52, 58, 105, 110, 102, 111,
   100, 52, 58, 110, 97, 109, 101, 49, 58, 110, 53, 58, 102, 105, 108, 101, 115, 108, 100, 54,
   58, 108, 101, 110, 103, 116, 104, 105, 49, 101, 52, 58, 112, 97, 116, 104, 108, 49, 58, 97,
   101, 101, 101, 49, 50, 58, 112, 105, 101, 99, 101, 32, 108, 101, 110, 103, 116, 104, 105,
   49, 101, 54, 58, 112, 105, 101, 99, 101, 115, 48, 58, 101, 101]


/-- The info-hash computation performed by `Torrent::load` (torrent.rs
lines 71-83): when loading succeeds the stored `info_hash` is exactly
`calculate_info_hash(bytes)`; metainfo deserialisation only gates success
and never changes the hash value. -/
def Torrent.load_info_hash (bytes : List Nat) : Except InfoHashError (List Nat) :=
  calculate_info_hash bytes


/-! ## Lemmas about the message codec -/

theorem readU32_u32be (n : Nat) (tail : List Nat) :
    readU32 (u32be n ++ tail) = some (n % 2 ^ 32, tail) := by
  simp only [u32be, List.cons_append, List.nil_append, readU32]
  refine congrArg some (Prod.ext ?_ rfl)
  simp only
  omega

theorem readU16_u16be (n : Nat) (tail : List Nat) :
    readU16 (u16be n ++ tail) = some (n % 2 ^ 16, tail) := by
  simp only [u16be, List.cons_append, List.nil_append, readU16]
  refine congrArg some (Prod.ext ?_ rfl)
  simp only
  omega

theorem length_u32be (n : Nat) : (u32be n).length = 4 := rfl

theorem getD4_u32be_cons (n x : Nat) (l : List Nat) :
    (u32be n ++ x :: l).getD 4 0 = x := by
  simp [u32be, List.getD]

theorem readU32_eq_none_iff (l : List Nat) : readU32 l = none ↔ l.length < 4 := by
  rcases l with _ | ⟨a, _ | ⟨b, _ | ⟨c, _ | ⟨d, t⟩⟩⟩⟩ <;> simp [readU32]

theorem readU32_some_of_length (l : List Nat) (h : 4 ≤ l.length) :
    ∃ v l', readU32 l = some (v, l') ∧ l'.length = l.length - 4 := by
  rcases l with _ | ⟨a, _ | ⟨b, _ | ⟨c, _ | ⟨d, t⟩⟩⟩⟩ <;>
    simp_all [readU32] <;> exact ⟨_, _, ⟨rfl, rfl⟩, rfl⟩

theorem readU16_eq_none_iff (l : List Nat) : readU16 l = none ↔ l.length < 2 := by
  rcases l with _ | ⟨a, _ | ⟨b, t⟩⟩ <;> simp [readU16]

theorem readU16_some_of_length (l : List Nat) (h : 2 ≤ l.length) :
    ∃ v l', readU16 l = some (v, l') ∧ l'.length = l.length - 2 := by
  rcases l with _ | ⟨a, _ | ⟨b, t⟩⟩ <;> simp_all [readU16] <;>
    exact ⟨_, _, ⟨rfl, rfl⟩, rfl⟩

theorem frameLen_u32be (n : Nat) (rest : List Nat) :
    frameLen (u32be n ++ rest) = n % 2 ^ 32 := by
  simp [frameLen, readU32_u32be]

theorem frameId_u32be (n x : Nat) (rest : List Nat) (hn : 0 < n % 2 ^ 32) :
    frameId (u32be n ++ x :: rest) = x := by
  rw [frameId, frameLen_u32be, if_pos hn, getD4_u32be_cons]

theorem readU32_u32be_nil (n : Nat) : readU32 (u32be n) = some (n % 2 ^ 32, []) := by
  simpa using readU32_u32be n []

theorem read_message_Have (idx : Nat) (h : idx < 2 ^ 32) :
    read_message (MessageType.to_bytes (.Have idx)) = .ok (.Have idx) := by
  have hidx : idx % 4294967296 = idx := Nat.mod_eq_of_lt h
  have hb : MessageType.to_bytes (.Have idx) = u32be 5 ++ (4 :: u32be idx) := by
    simp [MessageType.to_bytes]
  rw [read_message, hb, frameLen_u32be, frameId_u32be _ _ _ (by norm_num)]
  norm_num [MessageType.from_bytes, readU32_u32be, readU32_u32be_nil, length_u32be, hidx]

theorem read_message_Port (port : Nat) (h : port < 2 ^ 16) :
    read_message (MessageType.to_bytes (.Port port)) = .ok (.Port port) := by
  have hp : port % 65536 = port := Nat.mod_eq_of_lt h
  have hb : MessageType.to_bytes (.Port port) = u32be 3 ++ (9 :: u16be port) := by
    simp [MessageType.to_bytes]
  rw [read_message, hb, frameLen_u32be, frameId_u32be _ _ _ (by norm_num)]
  norm_num [MessageType.from_bytes, readU32_u32be, u16be, readU16]
  omega

theorem read_message_Request (index begin_ length : Nat) (hi : index < 2 ^ 32)
    (hb : begin_ < 2 ^ 32) (hl : length < 2 ^ 32) :
    read_message (MessageType.to_bytes (.Request index begin_ length)) =
      .ok (.Request index begin_ length) := by
  have hi' : index % 4294967296 = index := Nat.mod_eq_of_lt hi
  have hb' : begin_ % 4294967296 = begin_ := Nat.mod_eq_of_lt hb
  have hl' : length % 4294967296 = length := Nat.mod_eq_of_lt hl
  have he : MessageType.to_bytes (.Request index begin_ length) =
      u32be 13 ++ (6 :: (u32be index ++ (u32be begin_ ++ u32be length))) := by
    simp [MessageType.to_bytes]
  rw [read_message, he, frameLen_u32be, frameId_u32be _ _ _ (by norm_num)]
  norm_num [MessageType.from_bytes, readU32_u32be, readU32_u32be_nil, length_u32be,
    hi', hb', hl']

theorem read_message_Cancel (index begin_ length : Nat) (hi : index < 2 ^ 32)
    (hb : begin_ < 2 ^ 32) (hl : length < 2 ^ 32) :
    read_message (MessageType.to_bytes (.Cancel index begin_ length)) =
      .ok (.Cancel index begin_ length) := by
  have hi' : index % 4294967296 = index := Nat.mod_eq_of_lt hi
  have hb' : begin_ % 4294967296 = begin_ := Nat.mod_eq_of_lt hb
  have hl' : length % 4294967296 = length := Nat.mod_eq_of_lt hl
  have he : MessageType.to_bytes (.Cancel index begin_ length) =
      u32be 13 ++ (8 :: (u32be index ++ (u32be begin_ ++ u32be length))) := by
    simp [MessageType.to_bytes]
  rw [read_message, he, frameLen_u32be, frameId_u32be _ _ _ (by norm_num)]
  norm_num [MessageType.from_bytes, readU32_u32be, readU32_u32be_nil, length_u32be,
    hi', hb', hl']

theorem read_message_Bitfield (items : List Nat) (h : items.length + 1 < 2 ^ 32) :
    read_message (MessageType.to_bytes (.Bitfield items)) = .ok (.Bitfield items) := by
  have hml : (items.length % 4294967296 + 1) % 4294967296 = items.length + 1 := by omega
  have hml2 : (items.length + 1) % 4294967296 = items.length + 1 := Nat.mod_eq_of_lt h
  have he : MessageType.to_bytes (.Bitfield items) =
      u32be (items.length + 1) ++ (5 :: items) := by
    show u32be ((items.length % 2 ^ 32 + 1) % 2 ^ 32) ++ [5] ++ items = _
    rw [show ((items.length % 2 ^ 32 + 1) % 2 ^ 32 : Nat) = items.length + 1 from hml]
    simp
  rw [read_message, he, frameLen_u32be, frameId_u32be _ _ _ (by omega)]
  rw [MessageType.from_bytes.eq_def, readU32_u32be]
  rw [show ((items.length + 1) % 2 ^ 32 : Nat) = items.length + 1 from hml2]
  simp [List.take_length]

theorem read_message_Piece (index begin_ : Nat) (block : List Nat) (hi : index < 2 ^ 32)
    (hb : begin_ < 2 ^ 32) (hL : block.length % 2 ^ 32 < 2 ^ 32 - 9) :
    read_message (MessageType.to_bytes (.Piece index begin_ block)) =
      .ok (.Piece index begin_ (block.take (block.length % 2 ^ 32))) := by
  have hi' : index % 4294967296 = index := Nat.mod_eq_of_lt hi
  have hb' : begin_ % 4294967296 = begin_ := Nat.mod_eq_of_lt hb
  have hml : ((9 + block.length % 2 ^ 32) % 2 ^ 32 : Nat) = 9 + block.length % 2 ^ 32 :=
    Nat.mod_eq_of_lt (by omega)
  have he : MessageType.to_bytes (.Piece index begin_ block) =
      u32be (9 + block.length % 2 ^ 32) ++ (7 :: (u32be index ++ (u32be begin_ ++ block))) := by
    show u32be ((9 + block.length % 2 ^ 32) % 2 ^ 32) ++ [7] ++ u32be index ++
        u32be begin_ ++ block = _
    rw [hml]
    simp
  rw [read_message, he, frameLen_u32be, frameId_u32be _ _ _ (by omega)]
  rw [show ((9 + block.length % 2 ^ 32) % 2 ^ 32 : Nat) = 9 + block.length % 2 ^ 32 from hml]
  rw [MessageType.from_bytes.eq_def, readU32_u32be]
  rw [show ((9 + block.length % 2 ^ 32) % 2 ^ 32 : Nat) = 9 + block.length % 2 ^ 32 from hml]
  have h9 : ¬ (9 + block.length % 2 ^ 32 = 0) := by omega
  have hrl : (7 :: (u32be index ++ (u32be begin_ ++ block))).length = 9 + block.length := by
    simp [length_u32be]
    omega
  have hnlt : ¬ ((7 :: (u32be index ++ (u32be begin_ ++ block))).length <
      9 + block.length % 2 ^ 32) := by
    rw [hrl]; omega
  simp only [if_neg h9, if_neg hnlt, readU32_u32be, hi', hb']
  have hnine : ¬ (9 + block.length % 2 ^ 32 < 9) := by omega
  have htake : ¬ (block.length < 9 + block.length % 2 ^ 32 - 9) := by omega
  simp only [if_neg hnine, if_neg htake]
  have : (9 + block.length % 2 ^ 32 - 9 : Nat) = block.length % 2 ^ 32 := by omega
  rw [this, show (index % 2 ^ 32 : Nat) = index from Nat.mod_eq_of_lt hi,
    show (begin_ % 2 ^ 32 : Nat) = begin_ from Nat.mod_eq_of_lt hb]

/-- Totality analysis of the decoder on an exact frame: the outcome is a
message, a returned decode error, or — only when the declared length
leaves fewer payload bytes than the id requires — a panic. -/
theorem read_message_total (bs : List Nat) (h : exactFrame bs) :
    (∃ m, read_message bs = .ok m) ∨ (∃ e, read_message bs = .err e) ∨
      (read_message bs = .oob ∧ truncatedPayload bs) := by
  rcases bs with _ | ⟨a, _ | ⟨b, _ | ⟨c, _ | ⟨d, rest⟩⟩⟩⟩
  · exact absurd h (by simp [exactFrame, frameLen, readU32])
  · exact absurd h (by simp [exactFrame, frameLen, readU32])
  · exact absurd h (by simp [exactFrame, frameLen, readU32])
  · exact absurd h (by simp [exactFrame, frameLen, readU32])
  have hflen : frameLen (a :: b :: c :: d :: rest) =
      ((a * 256 + b) * 256 + c) * 256 + d := by
    simp [frameLen, readU32]
  have hrest : rest.length = ((a * 256 + b) * 256 + c) * 256 + d := by
    rw [exactFrame, hflen] at h
    simp at h
    omega
  by_cases hN0 : ((a * 256 + b) * 256 + c) * 256 + d = 0
  · left
    refine ⟨.KeepAlive, ?_⟩
    rw [read_message, MessageType.from_bytes.eq_def]
    simp only [readU32]
    rw [if_pos hN0]
  · obtain ⟨x, r, rfl⟩ : ∃ x r, rest = x :: r := by
      cases rest with
      | nil => exact absurd hrest.symm (by simpa using hN0)
      | cons x r => exact ⟨x, r, rfl⟩
    have hid : frameId (a :: b :: c :: d :: x :: r) = x := by
      rw [frameId, hflen, if_pos (Nat.pos_of_ne_zero hN0)]
      simp [List.getD]
    have hrl : r.length + 1 = ((a * 256 + b) * 256 + c) * 256 + d := by
      simpa using hrest
    have hnotlt : ¬((x :: r).length < ((a * 256 + b) * 256 + c) * 256 + d) := by
      simp only [List.length_cons]
      omega
    have hread : readU32 (a :: b :: c :: d :: x :: r) =
        some (((a * 256 + b) * 256 + c) * 256 + d, x :: r) := rfl
    rcases x with _ | _ | _ | _ | _ | _ | _ | _ | _ | _ | x <;>
      rw [read_message, hid, hflen, MessageType.from_bytes.eq_def] <;>
      simp only [hread] <;>
      rw [if_neg hN0, if_neg hnotlt]
    · exact .inl ⟨.Choke, rfl⟩
    · exact .inl ⟨.Unchoke, rfl⟩
    · exact .inl ⟨.Interested, rfl⟩
    · exact .inl ⟨.NotInterested, rfl⟩
    · -- id 4, Have: needs 4 payload bytes after the id
      by_cases h5 : ((a * 256 + b) * 256 + c) * 256 + d < 5
      · refine .inr (.inr ⟨?_, ⟨by rw [hflen]; omega, .inl ⟨by rw [hid], by rw [hflen]; omega⟩⟩⟩)
        simp only [(readU32_eq_none_iff r).2 (by omega : r.length < 4)]
      · obtain ⟨v, l', hv, -⟩ := readU32_some_of_length r (by omega)
        exact .inl ⟨.Have v, by simp only [hv]⟩
    · -- id 5, Bitfield: always succeeds on an exact frame
      refine .inl ⟨.Bitfield (r.take (((a * 256 + b) * 256 + c) * 256 + d - 1)), ?_⟩
      rw [if_neg hN0, if_neg (by omega)]
    · -- id 6, Request: needs 12 payload bytes after the id
      by_cases h13 : ((a * 256 + b) * 256 + c) * 256 + d < 13
      · refine .inr (.inr ⟨?_, ⟨by rw [hflen]; omega,
          .inr (.inl ⟨by rw [hid], by rw [hflen]; omega⟩)⟩⟩)
        by_cases hr4 : r.length < 4
        · simp only [(readU32_eq_none_iff r).2 hr4]
        · obtain ⟨v1, r1, hv1, hl1⟩ := readU32_some_of_length r (by omega)
          simp only [hv1]
          by_cases hr8 : r1.length < 4
          · simp only [(readU32_eq_none_iff r1).2 hr8]
          · obtain ⟨v2, r2, hv2, hl2⟩ := readU32_some_of_length r1 (by omega)
            simp only [hv2, (readU32_eq_none_iff r2).2 (by omega : r2.length < 4)]
      · obtain ⟨v1, r1, hv1, hl1⟩ := readU32_some_of_length r (by omega)
        obtain ⟨v2, r2, hv2, hl2⟩ := readU32_some_of_length r1 (by omega)
        obtain ⟨v3, r3, hv3, -⟩ := readU32_some_of_length r2 (by omega)
        exact .inl ⟨.Request v1 v2 v3, by simp only [hv1, hv2, hv3]⟩
    · -- id 7, Piece: needs 8 payload bytes after the id
      by_cases h9 : ((a * 256 + b) * 256 + c) * 256 + d < 9
      · refine .inr (.inr ⟨?_, ⟨by rw [hflen]; omega,
          .inr (.inr (.inl ⟨by rw [hid], by rw [hflen]; omega⟩))⟩⟩)
        by_cases hr4 : r.length < 4
        · simp only [(readU32_eq_none_iff r).2 hr4]
        · obtain ⟨v1, r1, hv1, hl1⟩ := readU32_some_of_length r (by omega)
          simp only [hv1, (readU32_eq_none_iff r1).2 (by omega : r1.length < 4)]
      · obtain ⟨v1, r1, hv1, hl1⟩ := readU32_some_of_length r (by omega)
        obtain ⟨v2, r2, hv2, hl2⟩ := readU32_some_of_length r1 (by omega)
        refine .inl ⟨.Piece v1 v2 (r2.take (((a * 256 + b) * 256 + c) * 256 + d - 9)), ?_⟩
        simp only [hv1, hv2]
        rw [if_neg (by omega), if_neg (by omega)]
    · -- id 8, Cancel: needs 12 payload bytes after the id
      by_cases h13 : ((a * 256 + b) * 256 + c) * 256 + d < 13
      · refine .inr (.inr ⟨?_, ⟨by rw [hflen]; omega,
          .inr (.inr (.inr (.inl ⟨by rw [hid], by rw [hflen]; omega⟩)))⟩⟩)
        by_cases hr4 : r.length < 4
        · simp only [(readU32_eq_none_iff r).2 hr4]
        · obtain ⟨v1, r1, hv1, hl1⟩ := readU32_some_of_length r (by omega)
          simp only [hv1]
          by_cases hr8 : r1.length < 4
          · simp only [(readU32_eq_none_iff r1).2 hr8]
          · obtain ⟨v2, r2, hv2, hl2⟩ := readU32_some_of_length r1 (by omega)
            simp only [hv2, (readU32_eq_none_iff r2).2 (by omega : r2.length < 4)]
      · obtain ⟨v1, r1, hv1, hl1⟩ := readU32_some_of_length r (by omega)
        obtain ⟨v2, r2, hv2, hl2⟩ := readU32_some_of_length r1 (by omega)
        obtain ⟨v3, r3, hv3, -⟩ := readU32_some_of_length r2 (by omega)
        exact .inl ⟨.Cancel v1 v2 v3, by simp only [hv1, hv2, hv3]⟩
    · -- id 9, Port: needs 2 payload bytes after the id
      by_cases h3 : ((a * 256 + b) * 256 + c) * 256 + d < 3
      · refine .inr (.inr ⟨?_, ⟨by rw [hflen]; omega,
          .inr (.inr (.inr (.inr ⟨by rw [hid], by rw [hflen]; omega⟩)))⟩⟩)
        simp only [(readU16_eq_none_iff r).2 (by omega : r.length < 2)]
      · obtain ⟨v, l', hv, -⟩ := readU16_some_of_length r (by omega)
        exact .inl ⟨.Port v, by simp only [hv]⟩
    · -- unknown id ≥ 10
      exact .inr (.inl ⟨.unknownId _, rfl⟩)

/-! ## Lemmas about the block splitter -/

theorem buildBlocks_eq_nil (L o : Nat) (h : ¬o < L) : buildBlocks L o = [] := by
  rw [buildBlocks, dif_neg h]

theorem buildBlocks_cons (L o : Nat) (h : o < L) :
    buildBlocks L o =
      { offset := o % 2 ^ 32, length := min BLOCK_SIZE (L - o) % 2 ^ 32,
        status := .Empty, data := [] } :: buildBlocks L (o + min BLOCK_SIZE (L - o)) := by
  rw [buildBlocks, dif_pos h]

theorem buildBlocks_length_aux (n : Nat) : ∀ L o, L - o ≤ n →
    (buildBlocks L o).length = (L - o + (BLOCK_SIZE - 1)) / BLOCK_SIZE := by
  induction n with
  | zero =>
    intro L o h
    rw [buildBlocks_eq_nil L o (by omega)]
    simp only [List.length_nil, BLOCK_SIZE]
    omega
  | succ n ih =>
    intro L o h
    by_cases hlt : o < L
    · rw [buildBlocks_cons L o hlt]
      simp only [List.length_cons]
      have h1 : min BLOCK_SIZE (L - o) ≤ BLOCK_SIZE := Nat.min_le_left _ _
      have h3 : min BLOCK_SIZE (L - o) = BLOCK_SIZE ∨ min BLOCK_SIZE (L - o) = L - o :=
        min_choice _ _
      have h4 : 0 < min BLOCK_SIZE (L - o) :=
        lt_min_iff.2 ⟨by norm_num [BLOCK_SIZE], by omega⟩
      rw [ih L (o + min BLOCK_SIZE (L - o)) (by omega)]
      simp only [BLOCK_SIZE] at *
      omega
    · rw [buildBlocks_eq_nil L o hlt]
      simp only [List.length_nil, BLOCK_SIZE]
      omega

theorem buildBlocks_length (L o : Nat) :
    (buildBlocks L o).length = (L - o + (BLOCK_SIZE - 1)) / BLOCK_SIZE :=
  buildBlocks_length_aux (L - o) L o le_rfl

theorem buildBlocks_sum_aux (n : Nat) : ∀ L o, L - o ≤ n →
    ((buildBlocks L o).map BlockInfo.length).sum = L - o := by
  induction n with
  | zero =>
    intro L o h
    rw [buildBlocks_eq_nil L o (by omega)]
    simp only [List.map_nil, List.sum_nil]
    omega
  | succ n ih =>
    intro L o h
    by_cases hlt : o < L
    · rw [buildBlocks_cons L o hlt]
      simp only [List.map_cons, List.sum_cons]
      have h1 : min BLOCK_SIZE (L - o) ≤ BLOCK_SIZE := Nat.min_le_left _ _
      have h3 : min BLOCK_SIZE (L - o) = BLOCK_SIZE ∨ min BLOCK_SIZE (L - o) = L - o :=
        min_choice _ _
      have h4 : 0 < min BLOCK_SIZE (L - o) :=
        lt_min_iff.2 ⟨by norm_num [BLOCK_SIZE], by omega⟩
      have hmod : min BLOCK_SIZE (L - o) % 2 ^ 32 = min BLOCK_SIZE (L - o) :=
        Nat.mod_eq_of_lt (by simp only [BLOCK_SIZE] at *; omega)
      rw [hmod, ih L (o + min BLOCK_SIZE (L - o)) (by omega)]
      omega
    · rw [buildBlocks_eq_nil L o hlt]
      simp only [List.map_nil, List.sum_nil]
      omega

theorem buildBlocks_sum (L o : Nat) :
    ((buildBlocks L o).map BlockInfo.length).sum = L - o :=
  buildBlocks_sum_aux (L - o) L o le_rfl

theorem buildBlocks_forall_aux (n : Nat) : ∀ L o, L - o ≤ n →
    ∀ b ∈ buildBlocks L o, b.length ≤ BLOCK_SIZE ∧ b.status = .Empty ∧ b.data = [] := by
  induction n with
  | zero =>
    intro L o h b hb
    rw [buildBlocks_eq_nil L o (by omega)] at hb
    simp at hb
  | succ n ih =>
    intro L o h b hb
    by_cases hlt : o < L
    · rw [buildBlocks_cons L o hlt] at hb
      rcases List.mem_cons.1 hb with hb | hb
      · subst hb
        refine ⟨?_, rfl, rfl⟩
        have h1 : min BLOCK_SIZE (L - o) ≤ BLOCK_SIZE := Nat.min_le_left _ _
        calc min BLOCK_SIZE (L - o) % 2 ^ 32 ≤ min BLOCK_SIZE (L - o) := Nat.mod_le _ _
          _ ≤ BLOCK_SIZE := h1
      · have h4 : 0 < min BLOCK_SIZE (L - o) :=
          lt_min_iff.2 ⟨by norm_num [BLOCK_SIZE], by omega⟩
        exact ih L (o + min BLOCK_SIZE (L - o)) (by omega) b hb
    · rw [buildBlocks_eq_nil L o hlt] at hb
      simp at hb

theorem buildBlocks_forall (L o : Nat) :
    ∀ b ∈ buildBlocks L o, b.length ≤ BLOCK_SIZE ∧ b.status = .Empty ∧ b.data = [] :=
  buildBlocks_forall_aux (L - o) L o le_rfl

theorem buildBlocks_offset_aux (n : Nat) : ∀ L o, L - o ≤ n →
    ∀ k, k < (buildBlocks L o).length →
    ((buildBlocks L o).map BlockInfo.offset).getD k 0 = (o + BLOCK_SIZE * k) % 2 ^ 32 := by
  induction n with
  | zero =>
    intro L o h k hk
    rw [buildBlocks_eq_nil L o (by omega)] at hk
    simp at hk
  | succ n ih =>
    intro L o h k hk
    by_cases hlt : o < L
    · rw [buildBlocks_cons L o hlt] at hk ⊢
      cases k with
      | zero => simp
      | succ k =>
        rw [List.map_cons, List.getD_cons_succ]
        have hk' : k < (buildBlocks L (o + min BLOCK_SIZE (L - o))).length := by
          simpa using hk
        have htl : o + min BLOCK_SIZE (L - o) < L := by
          by_contra hc
          rw [buildBlocks_eq_nil _ _ hc] at hk'
          simp at hk'
        have h3 : min BLOCK_SIZE (L - o) = BLOCK_SIZE ∨ min BLOCK_SIZE (L - o) = L - o :=
          min_choice _ _
        have hbl : min BLOCK_SIZE (L - o) = BLOCK_SIZE := by
          rcases h3 with h3 | h3
          · exact h3
          · omega
        have h4 : 0 < min BLOCK_SIZE (L - o) :=
          lt_min_iff.2 ⟨by norm_num [BLOCK_SIZE], by omega⟩
        rw [ih L (o + min BLOCK_SIZE (L - o)) (by omega) k hk']
        have harg : o + min BLOCK_SIZE (L - o) + BLOCK_SIZE * k = o + BLOCK_SIZE * (k + 1) := by
          rw [hbl]
          ring
        rw [harg]
    · rw [buildBlocks_eq_nil L o hlt] at hk
      simp at hk

theorem buildBlocks_offset (L o k : Nat) (hk : k < (buildBlocks L o).length) :
    ((buildBlocks L o).map BlockInfo.offset).getD k 0 = (o + BLOCK_SIZE * k) % 2 ^ 32 :=
  buildBlocks_offset_aux (L - o) L o le_rfl k hk

theorem buildBlocks_last_aux (n : Nat) : ∀ L o, L - o ≤ n → o < L →
    ((buildBlocks L o).map BlockInfo.length).getLast? =
      some (if (L - o) % BLOCK_SIZE = 0 then BLOCK_SIZE else (L - o) % BLOCK_SIZE) := by
  induction n with
  | zero =>
    intro L o h hlt
    omega
  | succ n ih =>
    intro L o h hlt
    rw [buildBlocks_cons L o hlt]
    have h1 : min BLOCK_SIZE (L - o) ≤ BLOCK_SIZE := Nat.min_le_left _ _
    have h3 : min BLOCK_SIZE (L - o) = BLOCK_SIZE ∨ min BLOCK_SIZE (L - o) = L - o :=
      min_choice _ _
    have h4 : 0 < min BLOCK_SIZE (L - o) :=
      lt_min_iff.2 ⟨by norm_num [BLOCK_SIZE], by omega⟩
    have hmod : min BLOCK_SIZE (L - o) % 2 ^ 32 = min BLOCK_SIZE (L - o) :=
      Nat.mod_eq_of_lt (by simp only [BLOCK_SIZE] at *; omega)
    by_cases htl : o + min BLOCK_SIZE (L - o) < L
    · have hbl : min BLOCK_SIZE (L - o) = BLOCK_SIZE := by
        rcases h3 with h3 | h3
        · exact h3
        · omega
      have hne : buildBlocks L (o + min BLOCK_SIZE (L - o)) ≠ [] := by
        rw [buildBlocks_cons L _ htl]
        simp
      obtain ⟨y, ys, hys⟩ := List.exists_cons_of_ne_nil hne
      rw [List.map_cons, hys, List.map_cons, List.getLast?_cons_cons, ← List.map_cons, ← hys,
        ih L (o + min BLOCK_SIZE (L - o)) (by omega) htl]
      congr 1
      have : L - (o + min BLOCK_SIZE (L - o)) = L - o - BLOCK_SIZE := by omega
      rw [this]
      simp only [BLOCK_SIZE] at *
      split <;> split <;> omega
    · -- last block: the recursion at o + block_len is empty
      have hbl : min BLOCK_SIZE (L - o) = L - o := by
        rcases h3 with h3 | h3 <;> omega
      rw [buildBlocks_eq_nil L (o + min BLOCK_SIZE (L - o)) htl]
      simp only [List.map_cons, List.map_nil, List.getLast?_singleton]
      rw [hmod, hbl]
      congr 1
      simp only [BLOCK_SIZE] at *
      split <;> omega

theorem buildBlocks_last (L o : Nat) (hlt : o < L) :
    ((buildBlocks L o).map BlockInfo.length).getLast? =
      some (if (L - o) % BLOCK_SIZE = 0 then BLOCK_SIZE else (L - o) % BLOCK_SIZE) :=
  buildBlocks_last_aux (L - o) L o le_rfl hlt

theorem buildBlocksFuel_eq (n : Nat) : ∀ L o, L - o ≤ BLOCK_SIZE * n →
    buildBlocksFuel n L o = buildBlocks L o := by
  induction n with
  | zero =>
    intro L o h
    rw [buildBlocksFuel, buildBlocks_eq_nil L o (by simp only [BLOCK_SIZE] at h; omega)]
  | succ n ih =>
    intro L o h
    by_cases hlt : o < L
    · rw [buildBlocksFuel, if_pos hlt, buildBlocks_cons L o hlt]
      have h1 : min BLOCK_SIZE (L - o) ≤ BLOCK_SIZE := Nat.min_le_left _ _
      have h3 : min BLOCK_SIZE (L - o) = BLOCK_SIZE ∨ min BLOCK_SIZE (L - o) = L - o :=
        min_choice _ _
      rw [ih L (o + min BLOCK_SIZE (L - o)) (by simp only [BLOCK_SIZE] at *; omega)]
    · rw [buildBlocksFuel, if_neg hlt, buildBlocks_eq_nil L o hlt]

/-! ## Lemmas about the requester iteration -/

theorem countInProgress_flipEmpty (k : Nat) (bs : List BlockInfo) :
    countInProgress (flipEmpty k bs) ≤ countInProgress bs + k := by
  induction bs generalizing k with
  | nil => cases k <;> simp [flipEmpty, countInProgress]
  | cons b bs ih =>
    cases k with
    | zero => simp [flipEmpty]
    | succ k =>
      rw [flipEmpty]
      by_cases hb : b.status = .Empty
      · rw [if_pos hb]
        have := ih k
        simp only [countInProgress, List.countP_cons, hb] at *
        norm_num
        omega
      · rw [if_neg hb]
        simp only [countInProgress, List.countP_cons] at *
        have := ih (k + 1)
        omega

theorem countInProgress_applyBlockResponse (r : BlockResponse) (bs : List BlockInfo) :
    countInProgress (applyBlockResponse r bs) ≤ countInProgress bs := by
  induction bs with
  | nil => simp [applyBlockResponse]
  | cons b bs ih =>
    rw [applyBlockResponse]
    by_cases hb : b.offset = r.begin_ ∧ b.status = .InProgress
    · rw [if_pos hb]
      simp [countInProgress, List.countP_cons, hb.2]
    · rw [if_neg hb]
      simp only [countInProgress, List.countP_cons] at *
      omega

theorem countInProgress_applyBlockResponses (rs : List BlockResponse) (bs : List BlockInfo) :
    countInProgress (applyBlockResponses rs bs) ≤ countInProgress bs := by
  induction rs generalizing bs with
  | nil => simp [applyBlockResponses]
  | cons r rs ih =>
    rw [applyBlockResponses, List.foldl_cons]
    exact le_trans (ih (applyBlockResponse r bs)) (countInProgress_applyBlockResponse r bs)

/-! ## Lemmas about compact peer decoding -/

theorem peersOfCompact_length (items : List Nat) :
    (peersOfCompact items).length = items.length / 6 := by
  induction items using peersOfCompact.induct with
  | case1 a b c d e f rest ih =>
    rw [peersOfCompact]
    simp only [List.length_cons, ih]
    omega
  | case2 l h =>
    rcases l with _ | ⟨a, _ | ⟨b, _ | ⟨c, _ | ⟨d, _ | ⟨e, _ | ⟨f, rest⟩⟩⟩⟩⟩⟩
    · simp [peersOfCompact.eq_def]
    · simp [peersOfCompact.eq_def]
    · simp [peersOfCompact.eq_def]
    · simp [peersOfCompact.eq_def]
    · simp [peersOfCompact.eq_def]
    · simp [peersOfCompact.eq_def]
    · exact absurd rfl (h a b c d e f rest)

theorem peersOfCompact_getD (items : List Nat) :
    ∀ k, k < items.length / 6 →
    (peersOfCompact items).getD k { ip := "", port := 0 } =
      { ip := ipv4String (items.getD (6 * k) 0) (items.getD (6 * k + 1) 0)
          (items.getD (6 * k + 2) 0) (items.getD (6 * k + 3) 0),
        port := 256 * items.getD (6 * k + 4) 0 + items.getD (6 * k + 5) 0 } := by
  induction items using peersOfCompact.induct with
  | case1 a b c d e f rest ih =>
    intro k hk
    rw [peersOfCompact]
    cases k with
    | zero => simp [List.getD]
    | succ k =>
      rw [List.getD_cons_succ, ih k (by simp at hk; omega)]
      simp only [Nat.mul_succ, List.getD_cons_succ]
  | case2 l h =>
    intro k hk
    rcases l with _ | ⟨a, _ | ⟨b, _ | ⟨c, _ | ⟨d, _ | ⟨e, _ | ⟨f, rest⟩⟩⟩⟩⟩⟩
    · simp only [List.length_nil, List.length_cons] at hk; omega
    · simp only [List.length_nil, List.length_cons] at hk; omega
    · simp only [List.length_nil, List.length_cons] at hk; omega
    · simp only [List.length_nil, List.length_cons] at hk; omega
    · simp only [List.length_nil, List.length_cons] at hk; omega
    · simp only [List.length_nil, List.length_cons] at hk; omega
    · exact absurd rfl (h a b c d e f rest)

/-! ## Lemmas about the availability bitfield -/

theorem bitfield_bit_eq (byte k : Nat) :
    (byte &&& (1 <<< k) != 0) = decide ((byte >>> k) &&& 1 = 1) := by
  rw [Nat.one_shiftLeft, Nat.and_two_pow, Nat.and_one_is_mod, Nat.shiftRight_eq_div_pow]
  rw [Nat.testBit_to_div_mod]
  rcases Nat.mod_two_eq_zero_or_one (byte / 2 ^ k) with h | h <;> simp [h]


/-! ## Claim theorems -/

/-- C1 counterexample: the round-trip law fails as stated.  A `Piece`
message whose block holds `2 ^ 32` bytes is well-typed in Rust
(`Vec<u8>` on a 64-bit target), but `to_bytes` truncates the length
prefix through `block.len() as u32`, so decoding the encoded frame yields
a `Piece` with an empty block instead of the original message. -/
theorem C1_counterexample :
    ¬ ∀ m : MessageType, m.WellTyped → read_message m.to_bytes = .ok m := by
  intro hall
  have hwt : (MessageType.Piece 0 0 (List.replicate (2 ^ 32) 0)).WellTyped := by
    refine ⟨by norm_num, by norm_num, fun b hb => ?_⟩
    rw [List.eq_of_mem_replicate hb]
    norm_num
  have h1 := hall _ hwt
  rw [read_message_Piece 0 0 (List.replicate (2 ^ 32) 0) (by norm_num) (by norm_num)
    (by rw [List.length_replicate]; norm_num)] at h1
  simp only [List.length_replicate, Nat.mod_self, List.take_zero, DecodeOutcome.ok.injEq,
    MessageType.Piece.injEq, eq_self_iff_true, true_and] at h1
  have hlen := congrArg List.length h1
  rw [List.length_replicate, List.length_nil] at hlen
  exact absurd hlen (by norm_num)

/-- C1 (amended): for every well-typed message whose payload also fits the
u32 length prefix written by `to_bytes` (`Bitfield` payload below
2 ^ 32 − 1 bytes, `Piece` block below 2 ^ 32 − 9 bytes), decoding the
frame produced by encoding the message yields the message again. -/
theorem C1_theorem (m : MessageType) (hwt : m.WellTyped) (hsz : m.sizeOK) :
    read_message m.to_bytes = .ok m := by
  cases m with
  | Choke => decide
  | Unchoke => decide
  | Interested => decide
  | NotInterested => decide
  | KeepAlive => decide
  | Have index => exact read_message_Have index hwt
  | Bitfield items => exact read_message_Bitfield items hsz
  | Request index begin_ length => exact read_message_Request _ _ _ hwt.1 hwt.2.1 hwt.2.2
  | Cancel index begin_ length => exact read_message_Cancel _ _ _ hwt.1 hwt.2.1 hwt.2.2
  | Port port => exact read_message_Port port hwt
  | Piece index begin_ block =>
    have hlen : block.length % 2 ^ 32 = block.length :=
      Nat.mod_eq_of_lt (by have := hsz; simp only [MessageType.sizeOK] at this; omega)
    rw [read_message_Piece index begin_ block hwt.1 hwt.2.1
      (by rw [hlen]; have := hsz; simp only [MessageType.sizeOK] at this; omega)]
    rw [hlen, List.take_length]

/-- C1 witness: the amended round trip evaluated on a concrete frame. -/
theorem C1_witness :
    (MessageType.Piece 1 2 [7, 8]).WellTyped ∧ (MessageType.Piece 1 2 [7, 8]).sizeOK ∧
      read_message (MessageType.Piece 1 2 [7, 8]).to_bytes = .ok (.Piece 1 2 [7, 8]) :=
  ⟨by decide, by decide, C1_theorem (.Piece 1 2 [7, 8]) (by decide) (by decide)⟩

/-- C2: on a valid torrent whose info dictionary is bencoded
non-canonically (keys out of sorted order), the info hash computed by the
load path is the SHA-1 of the sorted re-encoding of the decoded info
value, not the SHA-1 of the exact byte range of the input (bytes 20-91 of
the example): the two digests differ, refuting the claimed equality
info_hash(load(bytes)) = sha1(info_subrange(bytes)). -/
theorem C2_theorem :
    infoSubrange exTorrent = some ((exTorrent.drop 20).take 72) ∧
      (Torrent.load_info_hash exTorrent).toOption ≠ (infoSubrange exTorrent).map sha1 ∧
      Torrent.load_info_hash exTorrent =
        .ok [58, 184, 231, 29, 198, 198, 114, 52, 73, 63, 64, 123, 174, 245, 74, 94, 19, 219,
          162, 157] ∧
      (infoSubrange exTorrent).map sha1 =
        some [168, 173, 229, 20, 192, 201, 253, 201, 80, 88, 243, 26, 82, 37, 74, 61, 68, 22,
          131, 99] := by
  refine ⟨by decide, by decide, by decide, by decide⟩

/-- C3: the `PieceManager::run` loop body is a stub — it prints the piece
index and drops the response, so the state (work queue included) is
unchanged for every response; in particular an `Ok` response whose bytes
do not hash to the expected digest is neither verified nor re-enqueued. -/
theorem C3_theorem :
    (∀ (st : PieceManagerState) (r : PieceResponse), PieceManager.run_step st r = st) ∧
      (PieceManager.run_step
        ⟨[], [⟨0, List.replicate 20 0, 1, 0⟩]⟩
        ⟨0, .ok [1]⟩).work_queue = [] :=
  ⟨fun _ _ => rfl, rfl⟩

/-- C4 counterexample: for a piece request of length 2 ^ 32 + 16384 (a
`usize` value accepted by the Rust code), the `offset as u32` cast wraps,
so the produced blocks are not in strictly increasing offset order. -/
theorem C4_counterexample :
    ¬ List.Pairwise (· < ·)
      ((PieceWork.ofRequest { piece_index := 0, length_bytes := 2 ^ 32 + BLOCK_SIZE }).blocks.map
        BlockInfo.offset) := by
  intro hp
  simp only [PieceWork.ofRequest] at hp
  have hlen : (buildBlocks (2 ^ 32 + BLOCK_SIZE) 0).length = 262145 := by
    rw [buildBlocks_length]
    norm_num [BLOCK_SIZE]
  have hmap : ((buildBlocks (2 ^ 32 + BLOCK_SIZE) 0).map BlockInfo.offset).length = 262145 := by
    rw [List.length_map, hlen]
  have hi : (1 : Nat) < ((buildBlocks (2 ^ 32 + BLOCK_SIZE) 0).map BlockInfo.offset).length := by
    rw [hmap]; norm_num
  have hj : (262144 : Nat) <
      ((buildBlocks (2 ^ 32 + BLOCK_SIZE) 0).map BlockInfo.offset).length := by
    rw [hmap]; norm_num
  have hcl := List.pairwise_iff_getElem.1 hp 1 262144 hi hj (by norm_num)
  rw [← List.getD_eq_getElem _ 0 hi, ← List.getD_eq_getElem _ 0 hj] at hcl
  rw [buildBlocks_offset _ _ 1 (by rw [hlen]; norm_num),
    buildBlocks_offset _ _ 262144 (by rw [hlen]; norm_num)] at hcl
  norm_num [BLOCK_SIZE] at hcl

/-- C4 (amended): for every piece request of length 0 < L ≤ 2 ^ 32, the
conversion to piece work yields exactly ⌈L / 16384⌉ blocks, their lengths
sum to L, every block is at most 16384 bytes and starts `Empty`, the final
block carries L mod 16384 (or 16384 when 16384 divides L), and the offsets
are strictly increasing. -/
theorem C4_theorem (piece_index L : Nat) (h0 : 0 < L) (h32 : L ≤ 2 ^ 32) :
    ((PieceWork.ofRequest { piece_index := piece_index, length_bytes := L }).blocks.length =
        (L + (BLOCK_SIZE - 1)) / BLOCK_SIZE) ∧
      (((PieceWork.ofRequest { piece_index := piece_index, length_bytes := L }).blocks.map
          BlockInfo.length).sum = L) ∧
      (∀ b ∈ (PieceWork.ofRequest { piece_index := piece_index, length_bytes := L }).blocks,
        b.length ≤ BLOCK_SIZE ∧ b.status = .Empty) ∧
      (((PieceWork.ofRequest { piece_index := piece_index, length_bytes := L }).blocks.map
          BlockInfo.length).getLast? =
        some (if L % BLOCK_SIZE = 0 then BLOCK_SIZE else L % BLOCK_SIZE)) ∧
      List.Pairwise (· < ·)
        ((PieceWork.ofRequest { piece_index := piece_index, length_bytes := L }).blocks.map
          BlockInfo.offset) := by
  simp only [PieceWork.ofRequest]
  refine ⟨?_, ?_, ?_, ?_, ?_⟩
  · rw [buildBlocks_length, Nat.sub_zero]
  · simpa using buildBlocks_sum L 0
  · intro b hb
    exact ⟨(buildBlocks_forall L 0 b hb).1, (buildBlocks_forall L 0 b hb).2.1⟩
  · simpa using buildBlocks_last L 0 h0
  · refine List.pairwise_iff_getElem.2 fun i j hi hj hij => ?_
    rw [List.length_map, buildBlocks_length] at hi hj
    have hi' : i < (buildBlocks L 0).length := by rw [buildBlocks_length]; omega
    have hj' : j < (buildBlocks L 0).length := by rw [buildBlocks_length]; omega
    rw [← List.getD_eq_getElem _ 0 (by rw [List.length_map]; exact hi'),
      ← List.getD_eq_getElem _ 0 (by rw [List.length_map]; exact hj'),
      buildBlocks_offset _ _ i hi', buildBlocks_offset _ _ j hj']
    simp only [BLOCK_SIZE] at *
    omega

/-- C4 witness: the amended statement evaluated at L = 40000. -/
theorem C4_witness :
    (0 < 40000 ∧ 40000 ≤ 2 ^ 32) ∧
      (((PieceWork.ofRequest { piece_index := 0, length_bytes := 40000 }).blocks.length =
          (40000 + (BLOCK_SIZE - 1)) / BLOCK_SIZE) ∧
        (((PieceWork.ofRequest { piece_index := 0, length_bytes := 40000 }).blocks.map
            BlockInfo.length).sum = 40000) ∧
        (∀ b ∈ (PieceWork.ofRequest { piece_index := 0, length_bytes := 40000 }).blocks,
          b.length ≤ BLOCK_SIZE ∧ b.status = .Empty) ∧
        (((PieceWork.ofRequest { piece_index := 0, length_bytes := 40000 }).blocks.map
            BlockInfo.length).getLast? =
          some (if 40000 % BLOCK_SIZE = 0 then BLOCK_SIZE else 40000 % BLOCK_SIZE)) ∧
        List.Pairwise (· < ·)
          ((PieceWork.ofRequest { piece_index := 0, length_bytes := 40000 }).blocks.map
            BlockInfo.offset)) :=
  ⟨⟨by norm_num, by norm_num⟩, C4_theorem 0 40000 (by norm_num) (by norm_num)⟩

/-- C5 counterexample: a Have frame with declared length 1 is an exact
frame, yet the decoder hits `bytes.get_u32()` with no bytes left and
panics instead of returning a decode error. -/
theorem C5_counterexample :
    ¬ ∀ bs : List Nat, exactFrame bs →
      (∃ m, read_message bs = .ok m) ∨ (∃ e, read_message bs = .err e) := by
  intro hall
  have hoob : read_message [0, 0, 0, 1, 4] = .oob := by decide
  rcases hall [0, 0, 0, 1, 4] (by decide) with ⟨m, hm⟩ | ⟨e, he⟩
  · rw [hoob] at hm
    cases hm
  · rw [hoob] at he
    cases he

/-- C5 (amended): on a buffer of exactly 4 + length bytes the decoder
returns the tagged message or a decode error, except that it panics —
rather than failing — when the declared length leaves fewer payload bytes
than the message id requires; no length cap exists in the code. -/
theorem C5_theorem (bs : List Nat) (h : exactFrame bs) :
    (∃ m, read_message bs = .ok m) ∨ (∃ e, read_message bs = .err e) ∨
      (read_message bs = .oob ∧ truncatedPayload bs) :=
  read_message_total bs h

/-- C5 witness: the amended decoder contract evaluated on a keep-alive
frame. -/
theorem C5_witness :
    exactFrame [0, 0, 0, 0] ∧
      ((∃ m, read_message [0, 0, 0, 0] = .ok m) ∨
        (∃ e, read_message [0, 0, 0, 0] = .err e) ∨
        (read_message [0, 0, 0, 0] = .oob ∧ truncatedPayload [0, 0, 0, 0])) :=
  ⟨by decide, C5_theorem [0, 0, 0, 0] (by decide)⟩

/-- C6 counterexample: a 7-byte compact string is not a decode error — the
conversion is total and silently drops the trailing byte, producing the
same single record as the 6-byte prefix. -/
theorem C6_counterexample :
    peersOfCompact [1, 2, 3, 4, 0, 80, 99] = [{ ip := "1.2.3.4", port := 80 }] ∧
      peersOfCompact [1, 2, 3, 4, 0, 80, 99] = peersOfCompact [1, 2, 3, 4, 0, 80] := by
  constructor
  · decide
  · decide

/-- C6 (amended): decoding a compact peers byte string yields exactly
⌊length / 6⌋ records, one per complete 6-byte chunk in order, each built
from four IPv4 bytes and a big-endian port; trailing bytes that do not
complete a chunk are silently ignored rather than reported as an error. -/
theorem C6_theorem (items : List Nat) :
    (peersOfCompact items).length = items.length / 6 ∧
      ∀ k, k < items.length / 6 →
        (peersOfCompact items).getD k { ip := "", port := 0 } =
          { ip := ipv4String (items.getD (6 * k) 0) (items.getD (6 * k + 1) 0)
              (items.getD (6 * k + 2) 0) (items.getD (6 * k + 3) 0),
            port := 256 * items.getD (6 * k + 4) 0 + items.getD (6 * k + 5) 0 } :=
  ⟨peersOfCompact_length items, peersOfCompact_getD items⟩

/-- C6 witness: the amended statement evaluated on one complete chunk. -/
theorem C6_witness :
    (0 : Nat) < ([1, 2, 3, 4, 0, 80] : List Nat).length / 6 ∧
      (peersOfCompact [1, 2, 3, 4, 0, 80]).getD 0 { ip := "", port := 0 } =
        { ip := ipv4String (([1, 2, 3, 4, 0, 80] : List Nat).getD (6 * 0) 0)
            (([1, 2, 3, 4, 0, 80] : List Nat).getD (6 * 0 + 1) 0)
            (([1, 2, 3, 4, 0, 80] : List Nat).getD (6 * 0 + 2) 0)
            (([1, 2, 3, 4, 0, 80] : List Nat).getD (6 * 0 + 3) 0),
          port := 256 * ([1, 2, 3, 4, 0, 80] : List Nat).getD (6 * 0 + 4) 0 +
            ([1, 2, 3, 4, 0, 80] : List Nat).getD (6 * 0 + 5) 0 } :=
  ⟨by decide, (C6_theorem [1, 2, 3, 4, 0, 80]).2 0 (by decide)⟩

/-- C7: whenever the bitfield covers piece index i, `has_piece` returns
exactly the MSB-first bit test
(bitfield[i / 8] >>> (7 − i mod 8)) &&& 1 = 1. -/
theorem C7_theorem (s : PeerState) (i : Nat) (h : i / 8 < s.bitfield.length) :
    s.has_piece i = some (decide ((s.bitfield.get ⟨i / 8, h⟩ >>> (7 - i % 8)) &&& 1 = 1)) := by
  simp only [PeerState.has_piece]
  rw [List.get?_eq_get h]
  simp only
  rw [bitfield_bit_eq]

/-- C7 witness: the bit formula evaluated on the bitfield 0b10000000
0b01000000 at piece index 9 (true, second byte, second-highest bit). -/
theorem C7_witness :
    (9 : Nat) / 8 < (PeerState.mk true true false false [128, 64]).bitfield.length ∧
      (PeerState.mk true true false false [128, 64]).has_piece 9 =
        some (decide ((((PeerState.mk true true false false [128, 64]).bitfield.get
          ⟨9 / 8, by decide⟩) >>> (7 - 9 % 8)) &&& 1 = 1)) :=
  ⟨by decide, C7_theorem (PeerState.mk true true false false [128, 64]) 9 (by decide)⟩

/-- C8: the listener handles Have(i) with a `println!` only — the shared
state is returned unchanged and no bit is set, so after Have(0) on the
one-byte bitfield 0x00 the availability check still reports false,
contradicting the claim that the corresponding bit becomes set. -/
theorem C8_theorem :
    (∀ (s : PeerState) (i : Nat), PeerSession.peer_listener_step s (.Have i) = (s, [])) ∧
      ((PeerSession.peer_listener_step (PeerState.mk true true false false [0])
        (.Have 0)).1.has_piece 0 = some false) :=
  ⟨fun _ _ => rfl, by decide⟩

/-- C9 counterexample: two consecutive requester iterations with no
intervening block responses on a fresh 10-block piece leave 10 blocks
InProgress — the `max_in_flight` batch size bounds each batch, not the
total, so the claimed invariant fails across iterations. -/
theorem C9_counterexample :
    MAX_IN_FLIGHT < countInProgress
      ((PeerSession.requester_iteration false []
        (PeerSession.requester_iteration false []
          (PieceWork.ofRequest { piece_index := 0, length_bytes := 163840 }))).blocks) := by
  have hfe : buildBlocks 163840 0 = buildBlocksFuel 10 163840 0 :=
    (buildBlocksFuel_eq 10 163840 0 (by norm_num [BLOCK_SIZE])).symm
  simp only [PieceWork.ofRequest, hfe]
  decide

/-- C9 (amended): one requester iteration raises the number of InProgress
blocks by at most MAX_IN_FLIGHT = 5 (a per-batch bound); the bound does
not persist across iterations. -/
theorem C9_theorem (is_choked : Bool) (resps : List BlockResponse) (w : PieceWork) :
    countInProgress ((PeerSession.requester_iteration is_choked resps w).blocks) ≤
      countInProgress w.blocks + MAX_IN_FLIGHT := by
  rw [PeerSession.requester_iteration]
  cases is_choked with
  | true =>
    simp only [if_true]
    exact le_trans (countInProgress_applyBlockResponses resps w.blocks) (Nat.le_add_right _ _)
  | false =>
    simp only [Bool.false_eq_true, if_false]
    exact le_trans (countInProgress_flipEmpty MAX_IN_FLIGHT (applyBlockResponses resps w.blocks))
      (Nat.add_le_add_right (countInProgress_applyBlockResponses resps w.blocks) _)

/-- C10: `has_piece` indexes the bitfield without a bounds check, so
whenever the byte index i / 8 is not covered the call panics (modelled as
`none`) instead of returning false; the state built by `PeerSession::new`
has an empty bitfield, so there every availability check panics. -/
theorem C10_theorem :
    (∀ (s : PeerState) (i : Nat), s.bitfield.length ≤ i / 8 → s.has_piece i = none) ∧
      ∀ i : Nat, PeerSession.new_peer_state.has_piece i = none := by
  constructor
  · intro s i h
    simp only [PeerState.has_piece]
    rw [List.get?_eq_none.2 h]
  · intro i
    simp only [PeerState.has_piece, PeerSession.new_peer_state]
    rw [List.get?_eq_none.2 (by simp)]

/-- C10 witness: the out-of-bounds panic evaluated on the initial state at
piece index 3. -/
theorem C10_witness :
    (PeerState.mk true true false false []).bitfield.length ≤ 3 / 8 ∧
      (PeerState.mk true true false false []).has_piece 3 = none :=
  ⟨by decide, C10_theorem.1 (PeerState.mk true true false false []) 3 (by decide)⟩

end Btrs
